import Mathlib

/-!
Verification of the class name-resolution and dependency-propagation engine
of the Blockly OOP extension (`Blockly.Class` in `src/unnamed/part_000`,
`object_variables_get` in `src/blocks/variables.js`).

Names are modelled as lists of characters (JavaScript strings).
JavaScript numbers are IEEE-754 doubles; every number arising here
(`parseInt` of a digit string, `+ 1` on such a value) has an integer
value, so doubles are modelled by their exact integer value together
with an explicit round-to-nearest-even step (`roundDouble`) at every
operation, and number-to-string conversion switches to exponential
notation from 1e21 as in ECMA-262.
-/

namespace BlocklyClass

/-- A JavaScript string, as its character sequence. -/
abbrev Name := List Char

/-- Shorthand to build a `Name` from a Lean string literal. -/
def nm (s : String) : Name := s.toList

/-! ## Whitespace trimming

`name.replace(/^[\s\xa0]+|[\s\xa0]+$/g, "")` in `Blockly.Class.renameClass`
and `renameMethod` removes the leading and the trailing run of JavaScript
whitespace characters. -/

/-- The character class `[\s\xa0]` of JavaScript regular expressions. -/
def jsIsSpace (c : Char) : Bool :=
  let n := c.toNat
  n == 32 || n == 9 || n == 10 || n == 11 || n == 12 || n == 13 ||
  n == 160 || n == 5760 || (8192 ≤ n && n ≤ 8202) || n == 8232 ||
  n == 8233 || n == 8239 || n == 8287 || n == 12288 || n == 65279

/-- Model of `name.replace(/^[\s\xa0]+|[\s\xa0]+$/g, "")`: drop the leading and the
trailing whitespace run. -/
def trimName (n : Name) : Name :=
  ((n.dropWhile jsIsSpace).reverse.dropWhile jsIsSpace).reverse

/-! ## Decimal suffix machinery

`findLegalName` disambiguates a colliding candidate with
`name.match(/^(.*?)(\d+)$/)`: on a successful match `r`, `r[2]` is the
maximal decimal-digit suffix and `r[1]` the stem before it; the candidate
becomes `r[1] + (parseInt(r[2], 10) + 1)`.  The match fails (and `"2"` is
appended instead) when the name does not end in a digit, and also when the
stem contains a line terminator, because `.` does not match line
terminators in a JavaScript regex without the `s` flag. -/

/-- The maximal decimal-digit suffix of a name (`r[2]` of the regex match). -/
def suffixOf (n : Name) : Name := (n.reverse.takeWhile Char.isDigit).reverse

/-- The part of a name before its maximal decimal-digit suffix (`r[1]`). -/
def stemOf (n : Name) : Name := (n.reverse.dropWhile Char.isDigit).reverse

/-- Numeric value of a decimal digit character. -/
def digitVal (c : Char) : Nat := c.toNat - 48

/-- The exact integer value of a decimal digit string.  This is a
mathematical helper (also used to state bounds); `parseInt` itself is
`jsParseInt` below, which rounds this value to a double. -/
def parseDigits (ds : Name) : Nat := ds.foldl (fun a c => 10 * a + digitVal c) 0

/-- The decimal digit character for `d < 10`. -/
def digitChar (d : Nat) : Char := Char.ofNat (48 + d)

/-- Exact decimal rendering of a natural, big-endian, fuelled so that it
is structurally recursive; `natToCharsAux fuel n` is correct whenever
`n ≤ fuel`. -/
def natToCharsAux : Nat → Nat → List Char
  | 0, _ => []
  | fuel + 1, n => if n = 0 then [] else natToCharsAux fuel (n / 10) ++ [digitChar (n % 10)]

/-- Exact decimal digit string of `n` (empty for 0, which never occurs in
the renaming loop since it renders a successor).  JavaScript `String(v)`
is `jsNumToString` below, which uses this only for values under 1e21. -/
def natDigits (n : Nat) : List Char := natToCharsAux n n

/-! ### JavaScript doubles

All numbers reaching the renaming loop are integer-valued doubles, so a
double is modelled by its exact integer value, and every operation rounds
to the nearest representable value (53-bit significand, ties to even). -/

/-- The number of halvings that brings `n` below 2^53: the binary exponent
of the unit in the last place of the enclosing binade (0 for integers that
are exactly representable).  The first argument is fuel; the value itself
is more than enough. -/
def ulpExpAux : Nat → Nat → Nat
  | 0, _ => 0
  | fuel + 1, n => if n < 9007199254740992 then 0 else ulpExpAux fuel (n / 2) + 1

/-- Round a nonnegative integer to the nearest IEEE-754 double (round half
to even), returned as its exact integer value.  Integers up to 2^53 are
unchanged; larger ones are rounded to a multiple of `2 ^ ulpExpAux n n`. -/
def roundDouble (n : Nat) : Nat :=
  let e := ulpExpAux n n
  if e = 0 then n
  else
    let p := 2 ^ e
    let q := n / p
    let r := n % p
    let h := p / 2
    if r < h then q * p
    else if h < r then (q + 1) * p
    else if q % 2 = 0 then q * p
    else (q + 1) * p

/-- Model of `parseInt(ds, 10)` on a pure digit string: the exact integer
value rounded to the nearest double (inexact from 2^53 on). -/
def jsParseInt (ds : Name) : Nat := roundDouble (parseDigits ds)

/-- JavaScript `v + 1` on an integer-valued double `v`: the real sum
rounded back to a double.  At `v = 2^53` this is a fixed point
(`2^53 + 1` rounds back to `2^53`). -/
def jsSucc (v : Nat) : Nat := roundDouble (v + 1)

/-- One step of the shortest-significand search of ECMA-262
Number::toString: try significand length `k` for the `n`-digit value `v`;
of the two integers nearest to `v / 10^(n-k)`, pick — closest first, ties
preferring the even one — the first whose rounding reproduces `v`,
carrying into the next decade when the significand overflows to `10^k`.
Returns the significand together with the digit count it uses. -/
def skCandidate (v n k : Nat) : Option (Nat × Nat) :=
  let p := 10 ^ (n - k)
  let q := v / p
  let r := v % p
  let pick : Nat → Option (Nat × Nat) := fun s =>
    if 10 ^ (k - 1) ≤ s ∧ s < 10 ^ k ∧ roundDouble (s * p) = v then some (s, n)
    else if s = 10 ^ k ∧ roundDouble (s * p) = v then some (10 ^ (k - 1), n + 1)
    else none
  if 2 * r < p then (pick q).orElse fun _ => pick (q + 1)
  else if p < 2 * r then (pick (q + 1)).orElse fun _ => pick q
  else if q % 2 = 0 then (pick q).orElse fun _ => pick (q + 1)
  else (pick (q + 1)).orElse fun _ => pick q

/-- Search for the shortest round-tripping significand, in increasing
length; 17 significant digits always round-trip a double, so the fuel 18
used below never runs out on representable inputs (the fallback renders
every digit). -/
def findSKAux (v n : Nat) : Nat → Nat → Nat × Nat
  | 0, _ => (v, n)
  | fuel + 1, k =>
      match skCandidate v n k with
      | some sn => sn
      | none => findSKAux v n fuel (k + 1)

/-- ECMA-262 Number::toString for an integer-valued double at or above
1e21: the shortest decimal significand whose rounding reproduces the
value, rendered as `d.ddd…e+K`. -/
def expNotation (v : Nat) : Name :=
  let n := (natDigits v).length
  let sn := findSKAux v n 18 1
  let ds := natDigits sn.1
  ds.take 1 ++ (if 1 < ds.length then '.' :: ds.drop 1 else [])
    ++ 'e' :: '+' :: natDigits (sn.2 - 1)

/-- JavaScript number-to-string on an integer-valued double: exact decimal
digits below 1e21, exponential notation from 1e21 on. -/
def jsNumToString (v : Nat) : Name :=
  if v < 1000000000000000000000 then natDigits v else expNotation v

/-- A line terminator, which `.` does not match in a JavaScript regex. -/
def isLineTerm (c : Char) : Bool :=
  c == '\n' || c == '\r' || c.toNat == 8232 || c.toNat == 8233

/-- One collision step of `Blockly.Class.findLegalName`:
`var r = name.match(/^(.*?)(\d+)$/); if (!r) { name += "2"; } else
{ name = r[1] + (parseInt(r[2], 10) + 1); }` — with `parseInt`, `+ 1` and
the number-to-string coercion all at double precision. -/
def nextName (n : Name) : Name :=
  if suffixOf n = [] ∨ (stemOf n).any isLineTerm then n ++ ['2']
  else stemOf n ++ jsNumToString (jsSucc (jsParseInt (suffixOf n)))

/-! ### Facts about the suffix decomposition -/

theorem stem_append_suffix (n : Name) : stemOf n ++ suffixOf n = n := by
  unfold stemOf suffixOf
  rw [← List.reverse_append, List.takeWhile_append_dropWhile, List.reverse_reverse]

theorem suffix_all_digits (n : Name) : ∀ c ∈ suffixOf n, c.isDigit := by
  intro c hc
  have : c ∈ n.reverse.takeWhile Char.isDigit := by
    simpa [suffixOf] using hc
  exact List.mem_takeWhile_imp this

theorem stem_last_not_digit (n : Name) :
    ∀ c, (stemOf n).getLast? = some c → ¬ c.isDigit := by
  intro c hc
  have h1 : (n.reverse.dropWhile Char.isDigit).head? = some c := by
    rw [← List.getLast?_reverse]
    simpa [stemOf] using hc
  have h2 := List.head?_dropWhile_not (p := Char.isDigit) (l := n.reverse)
  rw [h1] at h2
  simp_all

/-- Uniqueness of the stem/suffix decomposition: if `s` does not end in a
digit and `ds` is all digits, `s ++ ds` decomposes back into `(s, ds)`. -/
theorem suffixOf_append (s ds : Name)
    (hs : ∀ c, s.getLast? = some c → ¬ c.isDigit)
    (hds : ∀ c ∈ ds, c.isDigit) :
    suffixOf (s ++ ds) = ds ∧ stemOf (s ++ ds) = s := by
  have hrev : (s ++ ds).reverse = ds.reverse ++ s.reverse := by
    simp [List.reverse_append]
  have hall : ∀ c ∈ ds.reverse, Char.isDigit c := by
    intro c hc; exact hds c (by simpa using hc)
  have htake : (s ++ ds).reverse.takeWhile Char.isDigit
      = ds.reverse ++ s.reverse.takeWhile Char.isDigit := by
    rw [hrev]; exact List.takeWhile_append_of_pos hall
  have hdrop : (s ++ ds).reverse.dropWhile Char.isDigit
      = s.reverse.dropWhile Char.isDigit := by
    rw [hrev]; exact List.dropWhile_append_of_pos hall
  have hstake : s.reverse.takeWhile Char.isDigit = [] := by
    cases hsr : s.reverse with
    | nil => simp
    | cons a t =>
        have : s.getLast? = some a := by
          rw [← List.head?_reverse, hsr]; simp
        have hna : ¬ a.isDigit := hs a this
        simp [hsr, List.takeWhile_cons_of_neg hna]
  have hsdrop : s.reverse.dropWhile Char.isDigit = s.reverse := by
    cases hsr : s.reverse with
    | nil => simp
    | cons a t =>
        have : s.getLast? = some a := by
          rw [← List.head?_reverse, hsr]; simp
        have hna : ¬ a.isDigit := hs a this
        simp [hsr, List.dropWhile_cons_of_neg hna]
  constructor
  · show (List.takeWhile Char.isDigit (s ++ ds).reverse).reverse = ds
    rw [htake, hstake]; simp
  · show (List.dropWhile Char.isDigit (s ++ ds).reverse).reverse = s
    rw [hdrop, hsdrop]; simp

theorem stemOf_eq_self_of_suffix_nil {n : Name} (h : suffixOf n = []) :
    stemOf n = n := by
  have := stem_append_suffix n
  rw [h] at this; simpa using this

/-! ### Correctness of the decimal rendering -/

theorem parseDigits_append_digit (l : Name) (c : Char) :
    parseDigits (l ++ [c]) = 10 * parseDigits l + digitVal c := by
  simp [parseDigits, List.foldl_append]

theorem digitChar_isDigit {d : Nat} (h : d < 10) : (digitChar d).isDigit := by
  interval_cases d <;> decide

theorem digitVal_digitChar {d : Nat} (h : d < 10) : digitVal (digitChar d) = d := by
  interval_cases d <;> decide

theorem natToCharsAux_parse :
    ∀ fuel n, n ≤ fuel → parseDigits (natToCharsAux fuel n) = n := by
  intro fuel
  induction fuel with
  | zero =>
      intro n hn
      interval_cases n
      simp [natToCharsAux, parseDigits]
  | succ f ih =>
      intro n hn
      by_cases h0 : n = 0
      · subst h0; simp [natToCharsAux, parseDigits]
      · have hlt : n / 10 < n := Nat.div_lt_self (Nat.pos_of_ne_zero h0) (by omega)
        have hle : n / 10 ≤ f := by omega
        simp only [natToCharsAux, if_neg h0]
        rw [parseDigits_append_digit, ih _ hle,
          digitVal_digitChar (Nat.mod_lt n (by omega))]
        omega

theorem natToCharsAux_digits :
    ∀ fuel n, ∀ c ∈ natToCharsAux fuel n, c.isDigit := by
  intro fuel
  induction fuel with
  | zero => intro n c hc; simp [natToCharsAux] at hc
  | succ f ih =>
      intro n c hc
      by_cases h0 : n = 0
      · subst h0; simp [natToCharsAux] at hc
      · simp only [natToCharsAux, if_neg h0, List.mem_append, List.mem_singleton] at hc
        rcases hc with hc | hc
        · exact ih _ c hc
        · subst hc; exact digitChar_isDigit (Nat.mod_lt n (by omega))

theorem parseDigits_natDigits (n : Nat) : parseDigits (natDigits n) = n :=
  natToCharsAux_parse n n (Nat.le_refl n)

theorem natDigits_all_digits (n : Nat) : ∀ c ∈ natDigits n, c.isDigit :=
  natToCharsAux_digits n n

/-! ### Exactness of the double arithmetic below 2^53 -/

theorem ulpExpAux_of_lt {fuel n : Nat} (h : n < 9007199254740992) :
    ulpExpAux fuel n = 0 := by
  cases fuel with
  | zero => rfl
  | succ f => rw [ulpExpAux, if_pos h]

theorem roundDouble_of_lt {n : Nat} (h : n < 9007199254740992) :
    roundDouble n = n := by
  rw [roundDouble]
  simp [ulpExpAux_of_lt h]

theorem roundDouble_p53 : roundDouble 9007199254740992 = 9007199254740992 := by
  decide

theorem roundDouble_of_le_p53 {n : Nat} (h : n ≤ 9007199254740992) :
    roundDouble n = n := by
  rcases Nat.lt_or_ge n 9007199254740992 with h' | h'
  · exact roundDouble_of_lt h'
  · have : n = 9007199254740992 := by omega
    rw [this]
    exact roundDouble_p53

theorem jsSucc_exact {v : Nat} (h : v + 1 ≤ 9007199254740992) :
    jsSucc v = v + 1 := by
  rw [jsSucc, roundDouble_of_le_p53 h]

theorem jsNumToString_small {v : Nat} (h : v < 1000000000000000000000) :
    jsNumToString v = natDigits v := by
  rw [jsNumToString, if_pos h]

/-! ### The collision step on a fresh candidate

When the regex fails (no digit suffix, or a line terminator in the stem)
the literal `2` is appended.  When it matches and the suffix value is
below 2^53 every double operation is exact, so the suffix is incremented
by exactly one; at 2^53 the step has a fixed point (see C6's
counterexample). -/

theorem nextName_dirty {n : Name}
    (h : suffixOf n = [] ∨ (stemOf n).any isLineTerm) :
    nextName n = n ++ ['2'] := by
  rw [nextName, if_pos h]

theorem nextName_clean {n : Name}
    (hc : ¬ (suffixOf n = [] ∨ (stemOf n).any isLineTerm))
    (hsm : parseDigits (suffixOf n) < 9007199254740992) :
    nextName n = stemOf n ++ natDigits (parseDigits (suffixOf n) + 1) := by
  rw [nextName, if_neg hc, jsParseInt, roundDouble_of_lt hsm,
    jsSucc_exact (by omega), jsNumToString_small (by omega)]

theorem nextName_key_small {n : Name}
    (hsm : parseDigits (suffixOf n) < 9007199254740992) :
    stemOf (nextName n) = stemOf n ∧
    parseDigits (suffixOf n) < parseDigits (suffixOf (nextName n)) := by
  by_cases hc : suffixOf n = [] ∨ (stemOf n).any isLineTerm
  · rw [nextName_dirty hc]
    rcases Decidable.em (suffixOf n = []) with hnil | hnn
    · -- no digit suffix: append the literal digit 2
      have hstem := stemOf_eq_self_of_suffix_nil hnil
      have hdec := suffixOf_append n ['2']
        (fun c h => by
          have := stem_last_not_digit n c
          rw [hstem] at this; exact this h)
        (by intro c hcm; simp at hcm; subst hcm; decide)
      refine ⟨by rw [hdec.2, hstem], ?_⟩
      rw [hdec.1, hnil]
      decide
    · -- digit suffix present but the regex failed to match (line terminator):
      -- the appended 2 extends the digit suffix
      have hsplit : n ++ ['2'] = stemOf n ++ (suffixOf n ++ ['2']) := by
        rw [← List.append_assoc, stem_append_suffix]
      have hdec := suffixOf_append (stemOf n) (suffixOf n ++ ['2'])
        (stem_last_not_digit n)
        (by
          intro c hcm
          rcases List.mem_append.1 hcm with h | h
          · exact suffix_all_digits n c h
          · simp at h; subst h; decide)
      rw [hsplit, hdec.1, hdec.2]
      refine ⟨rfl, ?_⟩
      rw [parseDigits_append_digit]
      have : digitVal '2' = 2 := by decide
      omega
  · rw [nextName_clean hc hsm]
    have hdec := suffixOf_append (stemOf n) (natDigits (parseDigits (suffixOf n) + 1))
      (stem_last_not_digit n)
      (natDigits_all_digits _)
    rw [hdec.1, hdec.2, parseDigits_natDigits]
    exact ⟨rfl, Nat.lt_succ_self _⟩

/-! ## Workspace data model

Blocks are modelled by the capabilities that `Blockly.Class` and
`object_variables_get` probe for.  The state of an `object_variables_get`
block (`src/blocks/variables.js`) is `OVGet`. -/

/-- One end-of-block connection: `absent` (no connection object), `free`
(connection object exists, unconnected), or `connected`. -/
inductive ConnSt
  | absent
  | free
  | connected
deriving DecidableEq, Repr

/-- One materialized value input `ARGi` of an `object_variables_get` block:
its index `i` (the input's name is `"ARG" + idx`), the argument-name field
shown on it, and the block connected to its socket, if any. -/
structure VInput where
  idx : Nat
  label : Name
  conn : Option Nat
deriving DecidableEq, Repr

/-- State of an `object_variables_get` block (a ReferenceSite). -/
structure OVGet where
  varType : Name
  varTypeIsSet : Bool
  methods : List Name
  classVariables : List Name
  args : Nat
  argNames : List Name
  curValue : Name
  typeOfValue : Name
  inputs : List VInput
  hasData : Bool
  dataOptions : List (Name × Name)
  prev : ConnSt
  next : ConnSt
  out : ConnSt
  dangling : Bool
deriving DecidableEq, Repr

/-- Block payloads, by capability.  `classDef` and `methodDef` model the
definition blocks of `blocks/class.js`, which is not under `src/`; their
capability contracts are modelled from the spec (§6): a class definition
exposes `getClassDef()`, `getStatement`, a `methods` list and
`getAttributeInputs()`; a method definition exposes `getMethodDef()`
returning its name and parameter-name list.  `refSite` is an
`object_variables_get` block from `src/blocks/variables.js`; `plain` is any
block with none of these capabilities. -/
inductive BlkData
  | classDef (name : Name) (methods : List Name) (attrs : List Name)
  | methodDef (name : Name) (params : List Name)
  | refSite (s : OVGet)
  | plain
deriving DecidableEq, Repr

/-- A workspace block: JavaScript object identity is modelled by `id`. -/
structure WBlock where
  id : Nat
  data : BlkData
deriving DecidableEq, Repr

/-- The `type` argument of `findLegalName`/`isNameUsed`: the strings
`"class"` and `"method"`. -/
inductive DefKind
  | cls
  | mth
deriving DecidableEq, Repr

/-- Modelled from the spec: `Blockly.Names.equals` (core/names.js, not
under `src/`); §4.2 describes it as a case-sensitive name-equality
predicate delegated to the environment. -/
def namesEquals (a b : Name) : Bool := a == b

/-- Does block `b` carry a definition of kind `ty` whose name equals
`name`?  (The per-`type` capability checks inside the loop of
`Blockly.Class.isNameUsed`.) -/
def matchesKind (ty : DefKind) (name : Name) (b : WBlock) : Bool :=
  match ty, b.data with
  | .cls, .classDef n _ _ => namesEquals n name
  | .mth, .methodDef n _ => namesEquals n name
  | _, _ => false

/-- Model of `Blockly.Class.isNameUsed(name, workspace, opt_exclude, type)`: scan
all blocks, skipping `opt_exclude` (object identity, modelled by id). -/
def isNameUsed (name : Name) (blocks : List WBlock) (exclude : Option Nat)
    (ty : DefKind) : Bool :=
  blocks.any fun b => !(exclude == some b.id) && matchesKind ty name b

/-- All names that `isNameUsed` would report as used: the names of the
non-excluded definitions of the given kind. -/
def usedNames (blocks : List WBlock) (exclude : Option Nat) (ty : DefKind) :
    List Name :=
  (blocks.filter fun b => !(exclude == some b.id)).filterMap fun b =>
    match ty, b.data with
    | .cls, .classDef n _ _ => some n
    | .mth, .methodDef n _ => some n
    | _, _ => none

theorem isNameUsed_iff_mem (name : Name) (blocks : List WBlock)
    (ex : Option Nat) (ty : DefKind) :
    isNameUsed name blocks ex ty = true ↔ name ∈ usedNames blocks ex ty := by
  unfold isNameUsed usedNames
  rw [List.any_eq_true]
  constructor
  · rintro ⟨b, hb, hp⟩
    rw [Bool.and_eq_true] at hp
    rcases hp with ⟨hex, hm⟩
    rw [List.mem_filterMap]
    refine ⟨b, List.mem_filter.2 ⟨hb, hex⟩, ?_⟩
    rcases b with ⟨bid, bd⟩
    cases ty <;> cases bd <;> simp_all [matchesKind, namesEquals]
  · intro hmem
    rcases List.mem_filterMap.1 hmem with ⟨b, hb, hf⟩
    rcases List.mem_filter.1 hb with ⟨hb, hex⟩
    refine ⟨b, hb, ?_⟩
    rw [Bool.and_eq_true]
    refine ⟨hex, ?_⟩
    rcases b with ⟨bid, bd⟩
    cases ty <;> cases bd <;> simp_all [matchesKind, namesEquals]

/-- The `while (!isLegalName_(...))` loop of `Blockly.Class.findLegalName`,
with explicit fuel; `none` means the loop did not exit within the fuel. -/
def findLegalNameFuel (blocks : List WBlock) (ex : Option Nat) (ty : DefKind) :
    Nat → Name → Option Name
  | 0, _ => none
  | fuel + 1, name =>
      if isNameUsed name blocks ex ty then
        findLegalNameFuel blocks ex ty fuel (nextName name)
      else some name

/-- One more than the number of distinct used names.  Every failing
candidate lies in the used-name set and the step is deterministic, so a
run that has not exited after this many iterations has repeated a
candidate and cycles forever: this fuel separates the terminating runs
(`some`) from the diverging ones (`none`). -/
def legalFuel (blocks : List WBlock) (ex : Option Nat) (ty : DefKind) : Nat :=
  (usedNames blocks ex ty).dedup.length + 1

/-- Model of `Blockly.Class.findLegalName(name, block, type)`.  The block
argument is split into its workspace (`blocks`), its identity (`ex`, the
collision exclusion) and its `isInFlyout` flag.  `none` models a call that
never returns: the JavaScript `while` loop can spin forever, because the
double increment has fixed points from 2^53 on (see the C6
counterexample and `findLegalNameFuel_none_of_fixpoint`). -/
def findLegalName (name : Name) (blocks : List WBlock) (ex : Option Nat)
    (isInFlyout : Bool) (ty : DefKind) : Option Name :=
  if isInFlyout then some name
  else findLegalNameFuel blocks ex ty (legalFuel blocks ex ty) name

/-! ### Termination of the disambiguation loop

With exact arithmetic the suffix value would strictly increase each
iteration; with doubles this holds only below 2^53, so the termination
ladder carries that bound as a hypothesis on the candidates involved. -/

/-- The sequence of candidate names the loop would try. -/
def candSeq : Nat → Name → List Name
  | 0, _ => []
  | k + 1, n => n :: candSeq k (nextName n)

theorem candSeq_length (k : Nat) (n : Name) : (candSeq k n).length = k := by
  induction k generalizing n with
  | zero => rfl
  | succ k ih => simp [candSeq, ih]

theorem mem_candSeq_key_small :
    ∀ k n, (∀ x ∈ candSeq k n, parseDigits (suffixOf x) < 9007199254740992) →
      ∀ m ∈ candSeq k n,
        stemOf m = stemOf n ∧ parseDigits (suffixOf n) ≤ parseDigits (suffixOf m) := by
  intro k
  induction k with
  | zero => intro n _ m hm; simp [candSeq] at hm
  | succ k ih =>
      intro n hall m hm
      rcases List.mem_cons.1 hm with rfl | hm
      · exact ⟨rfl, Nat.le_refl _⟩
      · have hn : parseDigits (suffixOf n) < 9007199254740992 :=
          hall n (List.mem_cons_self n _)
        have hk := nextName_key_small hn
        have h := ih (nextName n)
          (fun x hx => hall x (List.mem_cons_of_mem n hx)) m hm
        exact ⟨h.1.trans hk.1, Nat.le_of_lt (Nat.lt_of_lt_of_le hk.2 h.2)⟩

theorem candSeq_nodup_small :
    ∀ k n, (∀ x ∈ candSeq k n, parseDigits (suffixOf x) < 9007199254740992) →
      (candSeq k n).Nodup := by
  intro k
  induction k with
  | zero => intro n _; simp [candSeq]
  | succ k ih =>
      intro n hall
      refine List.nodup_cons.2 ⟨?_, ih (nextName n)
        (fun x hx => hall x (List.mem_cons_of_mem n hx))⟩
      intro hmem
      have hn : parseDigits (suffixOf n) < 9007199254740992 :=
        hall n (List.mem_cons_self n _)
      have h := mem_candSeq_key_small k (nextName n)
        (fun x hx => hall x (List.mem_cons_of_mem n hx)) n hmem
      have hk := nextName_key_small hn
      exact absurd (Nat.lt_of_lt_of_le hk.2 h.2) (Nat.lt_irrefl _)

theorem findLegalNameFuel_none_sub (blocks : List WBlock) (ex : Option Nat)
    (ty : DefKind) :
    ∀ k n, findLegalNameFuel blocks ex ty k n = none →
      ∀ m ∈ candSeq k n, m ∈ usedNames blocks ex ty := by
  intro k
  induction k with
  | zero => intro n _ m hm; simp [candSeq] at hm
  | succ k ih =>
      intro n hnone m hm
      by_cases hu : isNameUsed n blocks ex ty
      · rw [findLegalNameFuel, if_pos hu] at hnone
        rcases List.mem_cons.1 hm with rfl | hm
        · exact (isNameUsed_iff_mem m blocks ex ty).1 hu
        · exact ih (nextName n) hnone m hm
      · rw [findLegalNameFuel, if_neg hu] at hnone
        exact absurd hnone (by simp)

/-- Under the exactness bound — every used name of the kind has a suffix
value below 2^53 — the disambiguation loop exits within
`|distinct used names| + 1` iterations, for every proposed name. -/
theorem findLegalNameFuel_total_small (blocks : List WBlock) (ex : Option Nat)
    (ty : DefKind) (n : Name)
    (hsmall : ∀ u ∈ usedNames blocks ex ty,
      parseDigits (suffixOf u) < 9007199254740992) :
    findLegalNameFuel blocks ex ty (legalFuel blocks ex ty) n ≠ none := by
  intro hnone
  set L := legalFuel blocks ex ty with hL
  have hmem := findLegalNameFuel_none_sub blocks ex ty L n hnone
  have hall : ∀ x ∈ candSeq L n, parseDigits (suffixOf x) < 9007199254740992 :=
    fun x hx => hsmall x (hmem x hx)
  have hsub : ∀ m ∈ candSeq L n, m ∈ (usedNames blocks ex ty).dedup :=
    fun m hm => List.mem_dedup.2 (hmem m hm)
  have hperm : List.Subperm (candSeq L n) (usedNames blocks ex ty).dedup :=
    (candSeq_nodup_small L n hall).subperm hsub
  have hlen := hperm.length_le
  rw [candSeq_length] at hlen
  simp only [hL, legalFuel] at hlen
  omega

/-- A candidate that the step maps to itself and that is in use makes the
loop spin forever: no fuel suffices. -/
theorem findLegalNameFuel_none_of_fixpoint (blocks : List WBlock)
    (ex : Option Nat) (ty : DefKind) {n : Name}
    (hfix : nextName n = n) (hused : isNameUsed n blocks ex ty = true) :
    ∀ k, findLegalNameFuel blocks ex ty k n = none := by
  intro k
  induction k with
  | zero => rfl
  | succ k ih =>
      rw [findLegalNameFuel, if_pos hused, hfix]
      exact ih

theorem findLegalNameFuel_legal (blocks : List WBlock) (ex : Option Nat)
    (ty : DefKind) :
    ∀ k n r, findLegalNameFuel blocks ex ty k n = some r →
      isNameUsed r blocks ex ty = false := by
  intro k
  induction k with
  | zero => intro n r h; simp [findLegalNameFuel] at h
  | succ k ih =>
      intro n r h
      by_cases hu : isNameUsed n blocks ex ty
      · rw [findLegalNameFuel, if_pos hu] at h
        exact ih (nextName n) r h
      · rw [findLegalNameFuel, if_neg hu] at h
        cases h
        simpa using hu

/-- Whenever the loop exits outside a flyout, the returned name is not
used in the workspace by any other definition of the given kind. -/
theorem findLegalName_some_unused {name r : Name} {blocks : List WBlock}
    {ex : Option Nat} {ty : DefKind}
    (h : findLegalName name blocks ex false ty = some r) :
    isNameUsed r blocks ex ty = false := by
  rw [findLegalName] at h
  simp only [Bool.false_eq_true, if_false] at h
  exact findLegalNameFuel_legal blocks ex ty _ name r h

/-- A proposed name that is not already used is returned unchanged. -/
theorem findLegalName_of_unused {name : Name} {blocks : List WBlock}
    {ex : Option Nat} {ty : DefKind}
    (h : isNameUsed name blocks ex ty = false) :
    findLegalName name blocks ex false ty = some name := by
  simp [findLegalName, legalFuel, findLegalNameFuel, h]

/-! ## Member queries (`Blockly.Class.getMethods`, `getClassVariables`) -/

/-- Model of `Blockly.Class.getMethods(workspace, classname)`: scan all blocks; for
each block with `getStatement` whose `getClassDef()` equals `classname`
(plain `==`), overwrite the result with its `methods`; `[]` if none match. -/
def getMethods (blocks : List WBlock) (classname : Name) : List Name :=
  blocks.foldl
    (fun acc b =>
      match b.data with
      | .classDef n ms _ => if classname = n then ms else acc
      | _ => acc)
    []

/-- Model of `Blockly.Class.getClassVariables(workspace, classname)`: same scan,
collecting `getAttributeInputs()`. -/
def getClassVariables (blocks : List WBlock) (classname : Name) : List Name :=
  blocks.foldl
    (fun acc b =>
      match b.data with
      | .classDef n _ attrs => if classname = n then attrs else acc
      | _ => acc)
    []

/-- Model of `Blockly.Class.getMethodAttributes(workspace, methodName)`: parameter
names of the first method definition matching `methodName`; the source
returns `false` when none matches, modelled as `none`. -/
def getMethodAttributes (blocks : List WBlock) (methodName : Name) :
    Option (List Name) :=
  blocks.findSome? fun b =>
    match b.data with
    | .methodDef n ps => if n = methodName then some ps else none
    | _ => none

/-- Model of `getClassName()` of an `object_variables_get` block: its bound class
name, reported only once the binding is finalized (`varTypeIsSet`). -/
def siteClassName (b : WBlock) : Option Name :=
  match b.data with
  | .refSite s => if s.varTypeIsSet then some s.varType else none
  | _ => none

/-! ## Rename propagation (`Blockly.Class.renameClass`, `renameMethod`) -/

/-- A variable of the external variable-scope subsystem: its name and its
declared type (a class name). -/
structure SVar where
  name : Name
  vtype : Name
deriving DecidableEq, Repr

/-- Workspace state for the rename operations: the block list plus the
externally-owned variable scopes. -/
structure WState where
  blocks : List WBlock
  vars : List SVar
deriving DecidableEq, Repr

/-- Model of `object_variables_get.renameClass(oldName, newName)`
(`src/blocks/variables.js`): rebind `varType` when finalized and matching. -/
def renameClassSite (oldName newName : Name) (s : OVGet) : OVGet :=
  if s.varTypeIsSet && namesEquals oldName s.varType then
    { s with varType := newName }
  else s

/-- Apply the class-rename capability of one block.  Of the block kinds in
`src/`, only `object_variables_get` exposes `renameClass`; the definition
blocks of `blocks/class.js` (not under `src/`) expose none per the spec's
capability table (§6 lists `renameClass` among reference blocks only). -/
def renameClassBlock (oldName newName : Name) (b : WBlock) : WBlock :=
  match b.data with
  | .refSite s => { b with data := .refSite (renameClassSite oldName newName s) }
  | _ => b

/-- Modelled from the spec: `Blockly.Variables.renameScope` is not under
`src/`; §4.4 step 3 says it propagates the rename into the variable-scope
subsystem "so that variables whose declared type equals the old class name
are updated to the new name". -/
def renameScope (vars : List SVar) (oldName newName : Name) : List SVar :=
  vars.map fun v => if v.vtype = oldName then { v with vtype := newName } else v

/-- Model of `Blockly.Class.renameClass(name)` with field text `oldName`, source
block `srcId` (whose `isInFlyout` is `srcInFlyout`): trim, resolve the
legal name, propagate to every block exposing `renameClass` when the old
name differs from both the trimmed input and the legal name, always call
`Blockly.Variables.renameScope`, and return the legal name.  `none` models
a call that never returns because `findLegalName` spins. -/
def renameClassOp (st : WState) (srcId : Nat) (srcInFlyout : Bool)
    (oldName proposed : Name) : Option (Name × WState) :=
  let name := trimName proposed
  match findLegalName name st.blocks (some srcId) srcInFlyout .cls with
  | none => none
  | some legalName =>
      let blocks' :=
        if oldName ≠ name ∧ oldName ≠ legalName then
          st.blocks.map (renameClassBlock oldName legalName)
        else st.blocks
      some (legalName, { blocks := blocks', vars := renameScope st.vars oldName legalName })

/-- Modelled from the spec: the method-rename capability
(`renameProcedure`) belongs to the method-definition blocks of
`blocks/class.js`, not under `src/`; §4.4 says the rename notifies every
block exposing it with `(oldName, legalName)`.  A matching method
definition takes the new name. -/
def renameProcedureBlock (oldName newName : Name) (b : WBlock) : WBlock :=
  match b.data with
  | .methodDef n ps =>
      if namesEquals n oldName then { b with data := .methodDef newName ps } else b
  | _ => b

/-- Model of `Blockly.Class.renameMethod(name)`: same shape as `renameClassOp`,
scoped to kind `"method"`, with no variable-scope propagation. -/
def renameMethodOp (st : WState) (srcId : Nat) (srcInFlyout : Bool)
    (oldName proposed : Name) : Option (Name × WState) :=
  let name := trimName proposed
  match findLegalName name st.blocks (some srcId) srcInFlyout .mth with
  | none => none
  | some legalName =>
      let blocks' :=
        if oldName ≠ name ∧ oldName ≠ legalName then
          st.blocks.map (renameProcedureBlock oldName legalName)
        else st.blocks
      some (legalName, { st with blocks := blocks' })

/-! ## Connection shape (`object_variables_get.setType`) -/

/-- Model of `Connection.disconnect()`: detach both ends; a clean disconnect leaves
nothing dangling. -/
def disconnectConn : ConnSt → ConnSt
  | .connected => .free
  | c => c

/-- Model of `object_variables_get.setType(isReturn)` (`src/blocks/variables.js`).
In the `isReturn` branch the source disconnects the next and previous
connections before removing them and then enables the output.  In the
other branch it calls `setOutput(false)` directly and then enables the
statement connections.  The teardown semantics of `setOutput(false)` /
`setNextStatement(false)` come from Blockly core (`core/block.js`, not
under `src/`), modelled from the spec's §4.5 step 6: removing a connection
that is still connected leaves the peer connection dangling, which the
`dangling` flag records; removing an unconnected one is clean. -/
def setType (s : OVGet) (isReturn : Bool) : OVGet :=
  if s.varType ≠ [] ∧ s.varTypeIsSet then
    if isReturn then
      let s1 := { s with next := disconnectConn s.next }
      let s2 := { s1 with prev := disconnectConn s1.prev }
      let s3 := { s2 with
        next := ConnSt.absent, prev := ConnSt.absent,
        dangling := s2.dangling || (s2.next == ConnSt.connected)
          || (s2.prev == ConnSt.connected) }
      { s3 with out := if s3.out = ConnSt.absent then ConnSt.free else s3.out }
    else
      let s1 := { s with
        out := ConnSt.absent,
        dangling := s.dangling || (s.out == ConnSt.connected) }
      { s1 with
        next := if s1.next = ConnSt.absent then ConnSt.free else s1.next,
        prev := if s1.prev = ConnSt.absent then ConnSt.free else s1.prev }
  else s

/-! ## The helper `Blockly.Class.arraysEqual` -/

/-- The three possible results of `Blockly.Class.arraysEqual`: the boolean
`false`, the boolean `true`, or a number (an index). -/
inductive AeRes
  | bfalse
  | btrue
  | idx (i : Nat)
deriving DecidableEq, Repr

/-- The `for (var i = arr1.length; i--; )` scan: visits `i = k-1, …, 0` and
returns the first index (largest) where the entries differ. -/
def aeLoop {α : Type} [DecidableEq α] (a b : List α) : Nat → AeRes
  | 0 => .btrue
  | i + 1 => if a[i]? ≠ b[i]? then .idx i else aeLoop a b i

/-- Model of `Blockly.Class.arraysEqual(arr1, arr2)`: `false` on a length mismatch,
otherwise the downward scan. -/
def arraysEqual {α : Type} [DecidableEq α] (a b : List α) : AeRes :=
  if a.length ≠ b.length then .bfalse else aeLoop a b a.length

/-! ## Argument-socket reconciliation (`object_variables_get.onchange`) -/

/-- Model of `removeInput("ARG" + i)`: the input is disposed, its connection with it. -/
def removeArgInput (l : List VInput) (i : Nat) : List VInput :=
  l.filter fun v => v.idx != i

/-- Model of `appendValueInput("ARG" + i).appendField(label)`: a fresh, unconnected
trailing input.  (`moveInputBefore("ARG" + i, null)` then moves it to the
end, where it already is.) -/
def appendArgInput (l : List VInput) (i : Nat) (label : Name) : List VInput :=
  l ++ [⟨i, label, none⟩]

/-- Model of `getInput("ARG" + i)` as a presence test. -/
def hasArgInput (l : List VInput) (i : Nat) : Bool :=
  l.any fun v => v.idx == i

/-- Insert `x` immediately before the first input named `ARGj`. -/
def insertBeforeArg (l : List VInput) (j : Nat) (x : VInput) : List VInput :=
  l.takeWhile (fun v => v.idx != j) ++ x :: l.dropWhile (fun v => v.idx != j)

/-- Model of `moveInputBefore("ARG" + i, "ARG" + j)`. -/
def moveArgBefore (l : List VInput) (i j : Nat) : List VInput :=
  match l.find? (fun v => v.idx == i) with
  | none => l
  | some x => insertBeforeArg (removeArgInput l i) j x

/-- Model of `while (this.args > args.length) { this.args--;
this.removeInput("ARG" + this.args); }` -/
def shrinkArgInputs (target : Nat) : Nat → List VInput → Nat × List VInput
  | 0, l => (0, l)
  | a + 1, l =>
      if target < a + 1 then shrinkArgInputs target a (removeArgInput l a)
      else (a + 1, l)

/-- Model of `while (this.args < args.length) { this.appendValueInput("ARG" +
this.args).appendField(args[this.args]); …; this.args++; }`, fuelled by the
number of missing inputs. -/
def growArgInputs (newArgs : List Name) : Nat → Nat → List VInput → Nat × List VInput
  | 0, a, l => (a, l)
  | f + 1, a, l => growArgInputs newArgs f (a + 1) (appendArgInput l a (newArgs.getD a []))

/-- The argument-reconciliation segment of `object_variables_get.onchange`
(`src/blocks/variables.js` lines 229–252), for a site whose selected member
is the method with parameter list `newArgs`: match the input count, then
replace the single slot reported by `arraysEqual(this.argNames, args)` when
it returns a number, and finally record `this.argNames = args`. -/
def updateMethodArgs (s : OVGet) (newArgs : List Name) : OVGet :=
  let al :=
    if s.args ≠ newArgs.length then
      if s.args > newArgs.length then shrinkArgInputs newArgs.length s.args s.inputs
      else growArgInputs newArgs (newArgs.length - s.args) s.args s.inputs
    else (s.args, s.inputs)
  let inputs2 :=
    match arraysEqual s.argNames newArgs with
    | .idx c =>
        let l1 := removeArgInput al.2 c
        let l2 := appendArgInput l1 c (newArgs.getD c [])
        if hasArgInput l2 (c + 1) then moveArgBefore l2 c (c + 1) else l2
    | _ => al.2
  { s with args := al.1, argNames := newArgs, inputs := inputs2 }

/-! ## Dropdown refresh (`object_variables_get.getDropDown` / `update`) -/

/-- JavaScript truthiness of a string. -/
def jsTruthy (n : Name) : Bool := !n.isEmpty

/-- Model of `getClassName()` on the site itself. -/
def siteClassNameS (s : OVGet) : Option Name :=
  if s.varTypeIsSet then some s.varType else none

/-- Model of `Blockly.Class.getMethods(mainWorkspace, this.getClassName())`: the
method list freshly fetched during a dropdown refresh (empty when the
class name is unreported, since `==` against `undefined` never matches). -/
def fetchedMethods (s : OVGet) (blocks : List WBlock) : List Name :=
  match siteClassNameS s with
  | some c => getMethods blocks c
  | none => []

/-- Model of `Blockly.Class.getClassVariables(mainWorkspace, this.getClassName())
|| []` during a dropdown refresh. -/
def fetchedClassVars (s : OVGet) (blocks : List WBlock) : List Name :=
  match siteClassNameS s with
  | some c => getClassVariables blocks c
  | none => []

/-- Translation of a member name through the rename pair:
`if (name == oldName) return newName; return name` (and `name == undefined`
is false when no rename arguments were passed). -/
def renApply (ren : Option (Name × Name)) (m : Name) : Name :=
  match ren with
  | some (o, nw) => if m = o then nw else m
  | none => m

/-- Model of `oldName` as a JavaScript condition. -/
def renTruthy (ren : Option (Name × Name)) : Bool :=
  match ren with
  | some (o, _) => jsTruthy o
  | none => false

/-- Model of `object_variables_get.getDropDown(oldName, newName)`
(`src/blocks/variables.js` lines 318–385).  The rename pair `ren` models
the `(oldName, newName)` arguments (`none` when `update()` was invoked
without them, as `mutateCallers` does).  Faithful points: the rebuild is
skipped unless a member count changed or `oldName` is truthy; the stored
`methods`/`classVariables` are overwritten before the selection check; the
selection is cleared only inside the branch in which the combined fetched
member set is nonempty. -/
def getDropDown (s : OVGet) (inFlyout : Bool) (blocks : List WBlock)
    (ren : Option (Name × Name)) : OVGet :=
  if inFlyout then s else
  let methods := fetchedMethods s blocks
  let classVariables := fetchedClassVars s blocks
  if s.methods.length ≠ methods.length ∨ renTruthy ren = true ∨
      s.classVariables.length ≠ classVariables.length then
    let s2 := { s with
      hasData := false, dataOptions := [],
      methods := methods, classVariables := classVariables }
    if methods.length ≠ 0 ∨ classVariables.length ≠ 0 then
      let methodNames := methods.map (renApply ren)
      let cur1 := renApply ren s2.curValue
      let cv :=
        if !(methodNames.contains cur1) && !(s2.classVariables.contains cur1) then
          (([] : Name), ([] : Name))
        else (cur1, s2.typeOfValue)
      let tvo :=
        if jsTruthy cv.1 then
          if s2.classVariables.contains cv.1 then
            (nm "attribute", [(cv.1, cv.1)])
          else (nm "method", [(cv.1 ++ nm "()", cv.1)])
        else (cv.2, ([] : List (Name × Name)))
      let options2 := tvo.2 ++ s2.classVariables.filterMap fun v =>
        if v = cv.1 ∧ tvo.1 = nm "attribute" then none else some (v, v)
      let options3 := options2 ++ (methodNames.zip methods).filterMap fun p =>
        if p.1 = cv.1 ∧ tvo.1 = nm "method" then none
        else some (p.2 ++ nm "()", p.2)
      { s2 with
        curValue := cv.1, typeOfValue := tvo.1,
        hasData := true, dataOptions := options3 }
    else s2
  else s

/-- Model of `object_variables_get.update(oldName, legalName)`: refresh the dropdown
when the binding is finalized (`setInputsInline` is cosmetic). -/
def updateSite (s : OVGet) (inFlyout : Bool) (blocks : List WBlock)
    (ren : Option (Name × Name)) : OVGet :=
  if s.varTypeIsSet then getDropDown s inFlyout blocks ren else s

/-- Is `b` a class definition named `cname`?  (Decidable form used in the
hypotheses of the claims below.) -/
def isClassDefNamed (cname : Name) (b : WBlock) : Bool :=
  match b.data with
  | .classDef n _ _ => n == cname
  | _ => false

/-! ## Facts about `arraysEqual` -/

theorem aeLoop_btrue_of_agree {α : Type} [DecidableEq α] (a b : List α) :
    ∀ k, (∀ j < k, a[j]? = b[j]?) → aeLoop a b k = .btrue := by
  intro k
  induction k with
  | zero => intro _; rfl
  | succ k ih =>
      intro h
      have hk : a[k]? = b[k]? := h k (Nat.lt_succ_self k)
      rw [aeLoop, if_neg (by simpa using hk)]
      exact ih fun j hj => h j (Nat.lt_succ_of_lt hj)

theorem aeLoop_idx_spec {α : Type} [DecidableEq α] (a b : List α) :
    ∀ k, (∃ j, j < k ∧ a[j]? ≠ b[j]?) →
      ∃ i, i < k ∧ aeLoop a b k = .idx i ∧ a[i]? ≠ b[i]? ∧
        ∀ j, i < j → j < k → a[j]? = b[j]? := by
  intro k
  induction k with
  | zero => rintro ⟨j, hj, _⟩; omega
  | succ k ih =>
      rintro ⟨j, hj, hne⟩
      by_cases hk : a[k]? = b[k]?
      · have hjk : j < k := by
          rcases Nat.lt_succ_iff_lt_or_eq.1 hj with h | h
          · exact h
          · subst h; exact absurd hk hne
        rcases ih ⟨j, hjk, hne⟩ with ⟨i, hik, hres, hne', hagree⟩
        refine ⟨i, Nat.lt_succ_of_lt hik, ?_, hne', ?_⟩
        · rw [aeLoop, if_neg (by simpa using hk)]; exact hres
        · intro j' hij' hj'
          rcases Nat.lt_succ_iff_lt_or_eq.1 hj' with h | h
          · exact hagree j' hij' h
          · subst h; exact hk
      · refine ⟨k, Nat.lt_succ_self k, ?_, hk, ?_⟩
        · rw [aeLoop, if_pos hk]
        · intro j' h1 h2; omega

/-! ## Concrete scenario workspaces -/

/-- A workspace with two classes, `"Car"` (block 0) and `"Car2"` (block 1). -/
def carWs : List WBlock :=
  [⟨0, .classDef (nm "Car") [] []⟩, ⟨1, .classDef (nm "Car2") [] []⟩]

/-- A workspace whose only class is named `"a\n2"` (block 1): a digit
suffix, a line terminator in the stem. -/
def nlWs : List WBlock := [⟨1, .classDef ('a' :: '\n' :: '2' :: []) [] []⟩]

/-! ## Claims -/

/-- C1, counterexample.  The claim says that inside a flyout
`findLegalName(n, s, kind)` returns `n` trimmed of leading/trailing
whitespace.  The source returns `name` immediately, untrimmed: at the
proposed name `" a"` the result keeps its leading space and differs from
the trimmed name. -/
theorem C1_counterexample :
    findLegalName (nm " a") carWs (some 0) true .cls = some (nm " a") ∧
    trimName (nm " a") ≠ nm " a" := by
  exact ⟨rfl, by decide⟩

/-- C1 (amended): outside a flyout, whenever `findLegalName` returns, the
returned name is one for which `isNameUsed` is false (no other definition
of that kind in the workspace, excluding the renaming block itself, has
that exact name); inside a flyout it returns the proposed name unchanged —
not trimmed (trimming is performed by its callers
`renameClass`/`renameMethod` before the call, not by `findLegalName`). -/
theorem C1_findLegalName_spec (name : Name) (blocks : List WBlock)
    (ex : Option Nat) (ty : DefKind) (inFly : Bool) :
    (inFly = true → findLegalName name blocks ex inFly ty = some name) ∧
    (inFly = false → ∀ r, findLegalName name blocks ex inFly ty = some r →
      isNameUsed r blocks ex ty = false) := by
  constructor
  · rintro rfl; rfl
  · rintro rfl
    intro r hr
    exact findLegalName_some_unused hr

theorem C1_findLegalName_spec_witness :
    isNameUsed (nm "Car3") carWs (some 0) .cls = false :=
  (C1_findLegalName_spec (nm "Car2") carWs (some 0) .cls false).2 rfl
    (nm "Car3") (by decide)

/-- C5, counterexample.  The claim says every colliding candidate ending
in a decimal-digit suffix has that suffix incremented by exactly one.  Two
failures: (1) for the candidate `"a\n2"` (digit suffix `"2"`, line
terminator in the stem) the regex `/^(.*?)(\d+)$/` does not match, so the
code appends the literal `2` — one collision resolves to `"a\n22"`, whose
suffix value is 22, not 2 + 1; (2) for the candidate
`"a9007199254740992"` (suffix value 2^53) the double increment rounds
back, so the step maps the name to itself and the suffix is not
incremented at all. -/
theorem C5_counterexample :
    suffixOf ('a' :: '\n' :: '2' :: []) ≠ [] ∧
    findLegalName ('a' :: '\n' :: '2' :: []) nlWs (some 0) false .cls
      = some ('a' :: '\n' :: '2' :: '2' :: []) ∧
    parseDigits (suffixOf ('a' :: '\n' :: '2' :: '2' :: [])) ≠
      parseDigits (suffixOf ('a' :: '\n' :: '2' :: [])) + 1 ∧
    suffixOf (nm "a9007199254740992") ≠ [] ∧
    nextName (nm "a9007199254740992") = nm "a9007199254740992" := by
  refine ⟨by decide, by decide, by decide, by decide, by decide⟩

/-- C5 (amended): on each collision iteration of `findLegalName`, if the
candidate ends in a decimal-digit suffix, its stem contains no line
terminator (`.` in the JavaScript regex `/^(.*?)(\d+)$/` cannot match a
line terminator), and the suffix value is below 2^53 (so the double
increment is exact), the numeric suffix is incremented by exactly one; if
there is no digit suffix, or a line terminator in the stem, the literal
digit `2` is appended instead; from 2^53 on the increment is inexact (at
2^53 the candidate is left unchanged, see the counterexample).  In a
workspace containing classes `"Car"` and `"Car2"`, renaming `"Car"` to
`"Car2"` resolves to `"Car3"`. -/
theorem C5_suffix_increment :
    (∀ n : Name, suffixOf n ≠ [] → (stemOf n).any isLineTerm = false →
      parseDigits (suffixOf n) < 9007199254740992 →
      stemOf (nextName n) = stemOf n ∧
      parseDigits (suffixOf (nextName n)) = parseDigits (suffixOf n) + 1) ∧
    (∀ n : Name, suffixOf n = [] → nextName n = n ++ ['2']) ∧
    findLegalName (nm "Car2") carWs (some 0) false .cls = some (nm "Car3") := by
  refine ⟨?_, ?_, by decide⟩
  · intro n hsuf hterm hsm
    have hcond : ¬ (suffixOf n = [] ∨ (stemOf n).any isLineTerm) := by
      intro h; rcases h with h | h
      · exact hsuf h
      · rw [hterm] at h; cases h
    rw [nextName_clean hcond hsm]
    have hdec := suffixOf_append (stemOf n)
      (natDigits (parseDigits (suffixOf n) + 1))
      (stem_last_not_digit n) (natDigits_all_digits _)
    rw [hdec.1, hdec.2, parseDigits_natDigits]
    exact ⟨rfl, rfl⟩
  · intro n hsuf
    rw [nextName, if_pos (Or.inl hsuf)]

theorem C5_suffix_increment_witness :
    stemOf (nextName (nm "Car2")) = stemOf (nm "Car2") ∧
    parseDigits (suffixOf (nextName (nm "Car2")))
      = parseDigits (suffixOf (nm "Car2")) + 1 :=
  C5_suffix_increment.1 (nm "Car2") (by decide) (by decide) (by decide)

/-- A workspace whose only class carries the suffix 2^53, on which the
double increment of the collision step is a fixed point. -/
def fixWs : List WBlock :=
  [⟨1, .classDef (nm "a9007199254740992") [] []⟩]

/-- C6, counterexample.  The claim says the loop terminates for every
finite proposed name and workspace because the numeric suffix strictly
increases.  At the suffix value 2^53 the JavaScript increment rounds back
(`parseInt` gives 2^53 exactly, `2^53 + 1` rounds to 2^53, and the
rendering reproduces the same digits), so the collision step maps
`"a9007199254740992"` to itself; with a class of that name in the
workspace the candidate is forever in use and the `while` loop never
exits — the model returns `none` (and by
`findLegalNameFuel_none_of_fixpoint` no amount of fuel helps). -/
theorem C6_counterexample :
    nextName (nm "a9007199254740992") = nm "a9007199254740992" ∧
    isNameUsed (nm "a9007199254740992") fixWs (some 0) .cls = true ∧
    findLegalName (nm "a9007199254740992") fixWs (some 0) false .cls = none := by
  refine ⟨by decide, by decide, ?_⟩
  show findLegalNameFuel fixWs (some 0) .cls _ _ = none
  exact findLegalNameFuel_none_of_fixpoint fixWs (some 0) .cls
    (by decide) (by decide) _

/-- C6 (amended): the disambiguation loop of `findLegalName` terminates
for every proposed name and every finite workspace in which every used
name of the kind has a decimal-suffix value below 2^53: with fuel one
greater than the number of distinct used names (`legalFuel`), the fuelled
loop returns a result.  (Below 2^53 the double increment is exact, so the
candidates' suffix value strictly increases and the failing candidates are
pairwise distinct names drawn from the finite used-name set.  Without the
bound the loop can spin forever — see the counterexample.) -/
theorem C6_loop_terminates (name : Name) (blocks : List WBlock)
    (ex : Option Nat) (ty : DefKind)
    (hsmall : ∀ u ∈ usedNames blocks ex ty,
      parseDigits (suffixOf u) < 9007199254740992) :
    ∃ r, findLegalNameFuel blocks ex ty (legalFuel blocks ex ty) name = some r := by
  rcases h : findLegalNameFuel blocks ex ty (legalFuel blocks ex ty) name with _ | r
  · exact absurd h (findLegalNameFuel_total_small blocks ex ty name hsmall)
  · exact ⟨r, rfl⟩

theorem C6_loop_terminates_witness :
    ∃ r, findLegalNameFuel carWs (some 0) .cls
      (legalFuel carWs (some 0) .cls) (nm "Car2") = some r :=
  C6_loop_terminates (nm "Car2") carWs (some 0) .cls (by decide)

/-- C9: when no class definition named `className` exists in the
workspace, `getMethods` and `getClassVariables` both return the empty
list; absence of the class is not an error (both functions are total). -/
theorem C9_absent_class_empty (blocks : List WBlock) (cname : Name)
    (habs : ∀ b ∈ blocks, isClassDefNamed cname b = false) :
    getMethods blocks cname = [] ∧ getClassVariables blocks cname = [] := by
  induction blocks with
  | nil => exact ⟨rfl, rfl⟩
  | cons b bs ih =>
      have hb := habs b (List.mem_cons_self b bs)
      have hbs := ih fun b' hb' => habs b' (List.mem_cons_of_mem b hb')
      cases hdata : b.data with
      | classDef n ms attrs =>
          have hne : cname ≠ n := by
            intro h
            rw [isClassDefNamed, hdata] at hb
            subst h
            simp at hb
          constructor
          · simp only [getMethods, List.foldl_cons, hdata, if_neg hne]
            exact hbs.1
          · simp only [getClassVariables, List.foldl_cons, hdata, if_neg hne]
            exact hbs.2
      | methodDef n ps =>
          exact ⟨by simp only [getMethods, List.foldl_cons, hdata]; exact hbs.1,
            by simp only [getClassVariables, List.foldl_cons, hdata]; exact hbs.2⟩
      | refSite s =>
          exact ⟨by simp only [getMethods, List.foldl_cons, hdata]; exact hbs.1,
            by simp only [getClassVariables, List.foldl_cons, hdata]; exact hbs.2⟩
      | plain =>
          exact ⟨by simp only [getMethods, List.foldl_cons, hdata]; exact hbs.1,
            by simp only [getClassVariables, List.foldl_cons, hdata]; exact hbs.2⟩

theorem C9_absent_class_empty_witness :
    getMethods carWs (nm "Dog") = [] ∧ getClassVariables carWs (nm "Dog") = [] :=
  C9_absent_class_empty carWs (nm "Dog") (by decide)

/-- C10: `arraysEqual(arr1, arr2)` returns the boolean `false` whenever the
lengths differ; returns the boolean `true` whenever the lists are
element-wise equal; and otherwise returns a number — the largest index at
which the lists differ (the scan runs from the end), so with exactly one
differing position it returns that index, including the falsy index 0. -/
theorem C10_arraysEqual_spec {α : Type} [DecidableEq α] (a b : List α) :
    (a.length ≠ b.length → arraysEqual a b = .bfalse) ∧
    (a = b → arraysEqual a b = .btrue) ∧
    (a.length = b.length → a ≠ b →
      ∃ i, arraysEqual a b = .idx i ∧ a[i]? ≠ b[i]? ∧
        ∀ j, i < j → a[j]? = b[j]?) := by
  refine ⟨?_, ?_, ?_⟩
  · intro h; rw [arraysEqual, if_pos h]
  · rintro rfl
    rw [arraysEqual, if_neg (by simp)]
    exact aeLoop_btrue_of_agree a a a.length fun j _ => rfl
  · intro hlen hne
    have hex : ∃ j, j < a.length ∧ a[j]? ≠ b[j]? := by
      by_contra hall
      push_neg at hall
      refine hne (List.ext_getElem? fun j => ?_)
      by_cases hj : j < a.length
      · exact hall j hj
      · rw [List.getElem?_eq_none (by omega), List.getElem?_eq_none (by omega)]
    rcases aeLoop_idx_spec a b a.length hex with ⟨i, hik, hres, hne', hagree⟩
    refine ⟨i, ?_, hne', ?_⟩
    · rw [arraysEqual, if_neg (by simp [hlen])]; exact hres
    · intro j hij
      by_cases hj : j < a.length
      · exact hagree j hij hj
      · rw [List.getElem?_eq_none (by omega), List.getElem?_eq_none (by omega)]

theorem C10_arraysEqual_spec_witness :
    ∃ i, arraysEqual [nm "a", nm "b"] [nm "x", nm "b"] = .idx i ∧
      [nm "a", nm "b"][i]? ≠ [nm "x", nm "b"][i]? ∧
      ∀ j, i < j → [nm "a", nm "b"][j]? = [nm "x", nm "b"][j]? :=
  (C10_arraysEqual_spec [nm "a", nm "b"] [nm "x", nm "b"]).2.2 rfl (by decide)

/-- A freshly-bound reference site of type `t` with otherwise pristine
state (used by concrete scenarios). -/
def mkSite (t : Name) : OVGet where
  varType := t
  varTypeIsSet := true
  methods := []
  classVariables := []
  args := 0
  argNames := []
  curValue := []
  typeOfValue := []
  inputs := []
  hasData := false
  dataOptions := []
  prev := ConnSt.absent
  next := ConnSt.absent
  out := ConnSt.absent
  dangling := false

/-- A workspace with one class `"Cat"` (block 0) and three reference sites
(blocks 1–3) bound to it. -/
def catWs : List WBlock :=
  [⟨0, .classDef (nm "Cat") [] []⟩,
   ⟨1, .refSite (mkSite (nm "Cat"))⟩,
   ⟨2, .refSite (mkSite (nm "Cat"))⟩,
   ⟨3, .refSite (mkSite (nm "Cat"))⟩]

/-- The workspace `catWs` together with one variable whose declared type is `"Cat"`. -/
def catSt : WState := ⟨catWs, [⟨nm "x", nm "Cat"⟩]⟩

theorem renameScope_self (vars : List SVar) (n : Name) :
    renameScope vars n n = vars := by
  induction vars with
  | nil => rfl
  | cons v vs ih =>
      have hv : (if v.vtype = n then { v with vtype := n } else v) = v := by
        by_cases h : v.vtype = n
        · rw [if_pos h, ← h]
        · rw [if_neg h]
      calc renameScope (v :: vs) n n
          = (if v.vtype = n then { v with vtype := n } else v) :: renameScope vs n n := rfl
        _ = v :: vs := by rw [hv, ih]

/-- C2: when `renameClass` returns — resolving the proposed name to a
legal name different from the class's current name `oldName`, the
workspace holding no other class definition named `oldName` — then in the
resulting workspace no reference site reports `oldName` as its bound
class name, and every site that reported `oldName` before now reports
exactly the returned legal name. -/
theorem C2_renameClass_propagation (st : WState) (srcId : Nat)
    (oldName proposed : Name) (res : Name × WState)
    (huniq : ∀ b ∈ st.blocks, b.id ≠ srcId → isClassDefNamed oldName b = false)
    (hres : renameClassOp st srcId false oldName proposed = some res)
    (hnew : res.1 ≠ oldName) :
    (∀ b' ∈ res.2.blocks, siteClassName b' ≠ some oldName) ∧
    (∀ (i : Nat) (b : WBlock), st.blocks[i]? = some b →
      siteClassName b = some oldName →
      ∃ b', res.2.blocks[i]? = some b' ∧ siteClassName b' = some res.1) := by
  rcases hfl : findLegalName (trimName proposed) st.blocks (some srcId) false .cls
    with _ | legal
  · simp only [renameClassOp, hfl] at hres
    exact Option.noConfusion hres
  · simp only [renameClassOp, hfl, Option.some.injEq] at hres
    subst hres
    have hLne : legal ≠ oldName := hnew
    have hnon : trimName proposed ≠ oldName := by
      intro heq
      apply hLne
      have hfl2 : findLegalName (trimName proposed) st.blocks (some srcId) false .cls
          = some (trimName proposed) := by
        apply findLegalName_of_unused
        rw [heq]
        rw [isNameUsed, List.any_eq_false]
        intro b hb
        by_cases hid : b.id = srcId
        · simp [hid]
        · have hu := huniq b hb hid
          cases hbd : b.data <;>
            simp_all [matchesKind, isClassDefNamed, namesEquals]
      rw [hfl] at hfl2
      injection hfl2 with h2
      rw [h2]
      exact heq
    have hguard : oldName ≠ trimName proposed ∧ oldName ≠ legal :=
      ⟨Ne.symm hnon, Ne.symm hLne⟩
    rw [if_pos hguard]
    constructor
    · intro b' hb'
      have hb2 : b' ∈ st.blocks.map (renameClassBlock oldName legal) := hb'
      rcases List.mem_map.1 hb2 with ⟨b, _, rfl⟩
      cases hbd : b.data with
      | classDef n ms attrs => simp [renameClassBlock, hbd, siteClassName]
      | methodDef n ps => simp [renameClassBlock, hbd, siteClassName]
      | plain => simp [renameClassBlock, hbd, siteClassName]
      | refSite s =>
          simp only [renameClassBlock, hbd, siteClassName]
          rw [renameClassSite]
          by_cases hcond : s.varTypeIsSet && namesEquals oldName s.varType
          · rw [if_pos hcond]
            rw [Bool.and_eq_true] at hcond
            simp only [hcond.1, if_pos]
            intro h
            exact hLne (by injection h)
          · rw [if_neg hcond]
            by_cases hset : s.varTypeIsSet
            · simp only [hset, if_pos]
              intro h
              apply hcond
              rw [Bool.and_eq_true]
              refine ⟨hset, ?_⟩
              have hv : s.varType = oldName := by injection h
              simp [namesEquals, hv]
            · simp [hset]
    · intro i b hib hrep
      cases hbd : b.data with
      | classDef n ms attrs => simp [siteClassName, hbd] at hrep
      | methodDef n ps => simp [siteClassName, hbd] at hrep
      | plain => simp [siteClassName, hbd] at hrep
      | refSite s =>
          simp only [siteClassName, hbd] at hrep
          by_cases hset : s.varTypeIsSet
          · rw [if_pos hset] at hrep
            have hvt : s.varType = oldName := by injection hrep
            refine ⟨renameClassBlock oldName legal b, ?_, ?_⟩
            · show (st.blocks.map (renameClassBlock oldName legal))[i]?
                = some (renameClassBlock oldName legal b)
              rw [List.getElem?_map, hib]; rfl
            · show siteClassName (renameClassBlock oldName legal b) = some legal
              simp only [renameClassBlock, hbd, renameClassSite, hset, hvt, namesEquals,
                siteClassName, beq_self_eq_true, Bool.and_true, Bool.and_self, if_pos]
          · rw [if_neg hset] at hrep
            cases hrep

/-- The concrete result of renaming `"Cat"` to `"Dog"` over `catSt`. -/
def catRes : Name × WState :=
  (nm "Dog",
    ⟨catWs.map (renameClassBlock (nm "Cat") (nm "Dog")),
      renameScope catSt.vars (nm "Cat") (nm "Dog")⟩)

theorem C2_renameClass_propagation_witness :
    ∃ b', catRes.2.blocks[1]? = some b' ∧ siteClassName b' = some catRes.1 :=
  (C2_renameClass_propagation catSt 0 (nm "Cat") (nm "Dog") catRes
    (by decide) (by decide) (by decide)).2 1 ⟨1, .refSite (mkSite (nm "Cat"))⟩
    (by decide) (by decide)

/-- C4: when the old name equals the resolved legal name, both rename
operations are no-ops: `renameClass` returns the old name and leaves the
whole state unchanged — in particular `renameScope(ws, oldName, oldName)`
maps every variable scope to itself — and `renameMethod` likewise. -/
theorem C4_rename_idempotent (st : WState) (srcId : Nat) (inFly : Bool)
    (oldName proposed : Name) :
    (∀ r : Name × WState,
      renameClassOp st srcId inFly oldName proposed = some r →
      r.1 = oldName → r = (oldName, st)) ∧
    (∀ r : Name × WState,
      renameMethodOp st srcId inFly oldName proposed = some r →
      r.1 = oldName → r = (oldName, st)) := by
  constructor
  · intro r hr hleg
    rcases hfl : findLegalName (trimName proposed) st.blocks (some srcId) inFly .cls
      with _ | legal
    · simp only [renameClassOp, hfl] at hr
      exact Option.noConfusion hr
    · simp only [renameClassOp, hfl, Option.some.injEq] at hr
      subst hr
      have hleg' : legal = oldName := hleg
      have hguard : ¬ (oldName ≠ trimName proposed ∧ oldName ≠ legal) := by
        intro h
        exact h.2 hleg'.symm
      rw [if_neg hguard, hleg', renameScope_self]
  · intro r hr hleg
    rcases hfl : findLegalName (trimName proposed) st.blocks (some srcId) inFly .mth
      with _ | legal
    · simp only [renameMethodOp, hfl] at hr
      exact Option.noConfusion hr
    · simp only [renameMethodOp, hfl, Option.some.injEq] at hr
      subst hr
      have hleg' : legal = oldName := hleg
      have hguard : ¬ (oldName ≠ trimName proposed ∧ oldName ≠ legal) := by
        intro h
        exact h.2 hleg'.symm
      rw [if_neg hguard, hleg']

theorem C4_rename_idempotent_witness :
    renameClassOp catSt 0 false (nm "Cat") (nm "Cat") = some (nm "Cat", catSt) ∧
    renameMethodOp catSt 0 false (nm "speak") (nm "speak")
      = some (nm "speak", catSt) := by
  constructor
  · rcases hr : renameClassOp catSt 0 false (nm "Cat") (nm "Cat") with _ | r
    · exact absurd hr (by decide)
    · have h1 : r.1 = nm "Cat" := by
        have hm : (renameClassOp catSt 0 false (nm "Cat") (nm "Cat")).map Prod.fst
            = some (nm "Cat") := by decide
        rw [hr] at hm
        simpa using hm
      rw [(C4_rename_idempotent catSt 0 false (nm "Cat") (nm "Cat")).1 r hr h1]
  · rcases hr : renameMethodOp catSt 0 false (nm "speak") (nm "speak") with _ | r
    · exact absurd hr (by decide)
    · have h1 : r.1 = nm "speak" := by
        have hm : (renameMethodOp catSt 0 false (nm "speak") (nm "speak")).map Prod.fst
            = some (nm "speak") := by decide
        rw [hr] at hm
        simpa using hm
      rw [(C4_rename_idempotent catSt 0 false (nm "speak") (nm "speak")).2 r hr h1]

/-- C3, at the failing input.  A site bound to a no-return method whose
output connection is connected: the no-return branch of `setType` calls
`setOutput(false)` without first disconnecting the output connection (the
source only disconnects previous/next in the `isReturn` branch), so the
shape change removes a still-connected connection and leaves its peer
dangling — contradicting the claimed disconnect-first behaviour.  The
contrast case shows the `isReturn` branch does disconnect its statement
connections first and leaves nothing dangling. -/
theorem C3_setType_no_output_disconnect :
    (setType { mkSite (nm "c") with out := ConnSt.connected } false).out
      = ConnSt.absent ∧
    (setType { mkSite (nm "c") with out := ConnSt.connected } false).dangling
      = true ∧
    (setType { mkSite (nm "c") with
      next := ConnSt.connected, prev := ConnSt.connected } true).dangling = false ∧
    (setType { mkSite (nm "c") with
      next := ConnSt.connected, prev := ConnSt.connected } true).out = ConnSt.free := by
  refine ⟨by decide, by decide, by decide, by decide⟩

/-! ## Facts about the argument-socket reconciliation -/

theorem removeArg_map (f : Nat → VInput) (hf : ∀ k, (f k).idx = k)
    (r : List Nat) (i : Nat) :
    removeArgInput (r.map f) i = (r.filter fun k => k != i).map f := by
  unfold removeArgInput
  rw [List.filter_map]
  congr 1
  apply List.filter_congr
  intro k _
  simp [Function.comp, hf]

theorem range_decomp (n p : Nat) (hp : p < n) :
    List.range n = List.range p ++ p :: List.range' (p + 1) (n - p - 1) := by
  have h2 : List.range' p (n - p) = p :: List.range' (p + 1) (n - p - 1) := by
    have hnp : n - p = (n - p - 1) + 1 := by omega
    conv_lhs => rw [hnp]
    rfl
  have h1 : List.range' 0 p ++ List.range' p (n - p) = List.range' 0 n := by
    have h := List.range'_append 0 p (n - p) 1
    simp only [Nat.one_mul, Nat.zero_add] at h
    rw [Nat.sub_add_cancel (Nat.le_of_lt hp)] at h
    exact h
  rw [List.range_eq_range', ← h1, h2, ← List.range_eq_range']

theorem range_filter_ne (n p : Nat) (hp : p < n) :
    (List.range n).filter (fun k => k != p)
      = List.range p ++ List.range' (p + 1) (n - p - 1) := by
  rw [range_decomp n p hp, List.filter_append, List.filter_cons]
  have h1 : (List.range p).filter (fun k => k != p) = List.range p :=
    List.filter_eq_self.2 fun k hk => by
      have := List.mem_range.1 hk
      simp only [bne_iff_ne, ne_eq]
      omega
  have h2 : (List.range' (p + 1) (n - p - 1)).filter (fun k => k != p)
      = List.range' (p + 1) (n - p - 1) :=
    List.filter_eq_self.2 fun k hk => by
      have := List.mem_range'_1.1 hk
      simp only [bne_iff_ne, ne_eq]
      omega
  rw [h1]
  simp [h2]

theorem growArgInputs_spec (newArgs : List Name) :
    ∀ f a l, growArgInputs newArgs f a l
      = (a + f, l ++ (List.range' a f).map
          fun k => (⟨k, newArgs.getD k [], none⟩ : VInput)) := by
  intro f
  induction f with
  | zero => intro a l; simp [growArgInputs]
  | succ f ih =>
      intro a l
      have hr : List.range' a (f + 1) = a :: List.range' (a + 1) f := rfl
      rw [growArgInputs, ih, hr]
      rw [Prod.mk.injEq]
      constructor
      · omega
      · simp [appendArgInput]

theorem shrinkArgInputs_spec (f : Nat → VInput) (hf : ∀ k, (f k).idx = k) :
    ∀ a target, target ≤ a →
      shrinkArgInputs target a ((List.range a).map f)
        = (target, (List.range target).map f) := by
  intro a
  induction a with
  | zero =>
      intro target ht
      interval_cases target
      rfl
  | succ a ih =>
      intro target ht
      by_cases h : target < a + 1
      · rw [shrinkArgInputs, if_pos h]
        have hrem : removeArgInput ((List.range (a + 1)).map f) a
            = (List.range a).map f := by
          rw [removeArg_map f hf]
          congr 1
          rw [List.range_succ, List.filter_append]
          have h1 : (List.range a).filter (fun k => k != a) = List.range a :=
            List.filter_eq_self.2 fun k hk => by
              have := List.mem_range.1 hk
              simp only [bne_iff_ne, ne_eq]
              omega
          have h2 : [a].filter (fun k => k != a) = [] := by simp
          rw [h1, h2, List.append_nil]
        rw [hrem]
        exact ih target (by omega)
      · rw [shrinkArgInputs, if_neg h]
        have : target = a + 1 := by omega
        subst this
        rfl

theorem arraysEqual_largest_mismatch {α : Type} [DecidableEq α] (a b : List α)
    (hlen : a.length = b.length) (p : Nat) (hp : p < a.length)
    (hne : a[p]? ≠ b[p]?) (hagree : ∀ j, p < j → a[j]? = b[j]?) :
    arraysEqual a b = .idx p := by
  rcases aeLoop_idx_spec a b a.length ⟨p, hp, hne⟩ with ⟨i, hik, hres, hne', hag'⟩
  have hip : i = p := by
    rcases Nat.lt_trichotomy i p with h | h | h
    · exact absurd (hag' p h hp) hne
    · exact h
    · exact absurd (hagree i h) hne'
  rw [arraysEqual, if_neg (by simp [hlen])]
  rw [hip] at hres
  exact hres

theorem moveArgBefore_of_find (l : List VInput) (i j : Nat) (x : VInput)
    (h : l.find? (fun v => v.idx == i) = some x) :
    moveArgBefore l i j = insertBeforeArg (removeArgInput l i) j x := by
  rw [moveArgBefore, h]

/-- The replace-one-slot step of the reconciliation: removing input `ARGp`,
appending its replacement `x` at the end and moving it back before
`ARG(p+1)` reinserts it exactly at position `p` of a canonical input row. -/
theorem replaceSlot_spec (f : Nat → VInput) (hf : ∀ k, (f k).idx = k)
    (n p : Nat) (hp : p < n) (x : VInput) (hx : x.idx = p) :
    (if hasArgInput (removeArgInput ((List.range n).map f) p ++ [x]) (p + 1)
     then moveArgBefore (removeArgInput ((List.range n).map f) p ++ [x]) p (p + 1)
     else removeArgInput ((List.range n).map f) p ++ [x])
      = (List.range n).map (fun k => if k = p then x else f k) := by
  have hl1 : removeArgInput ((List.range n).map f) p
      = (List.range p).map f ++ (List.range' (p + 1) (n - p - 1)).map f := by
    rw [removeArg_map f hf, range_filter_ne n p hp, List.map_append]
  have htarget : (List.range n).map (fun k => if k = p then x else f k)
      = (List.range p).map f ++ x :: (List.range' (p + 1) (n - p - 1)).map f := by
    rw [range_decomp n p hp, List.map_append, List.map_cons, if_pos rfl]
    congr 1
    · apply List.map_congr_left
      intro k hk
      have := List.mem_range.1 hk
      rw [if_neg (by omega)]
    · congr 1
      apply List.map_congr_left
      intro k hk
      have := List.mem_range'_1.1 hk
      rw [if_neg (by omega)]
  by_cases hcase : p + 1 < n
  · -- an input ARG(p+1) exists: the appended slot is moved back before it
    have hmem : f (p + 1) ∈ removeArgInput ((List.range n).map f) p ++ [x] := by
      rw [hl1]
      refine List.mem_append.2 (Or.inl (List.mem_append.2 (Or.inr ?_)))
      exact List.mem_map_of_mem f (List.mem_range'_1.2 ⟨Nat.le_refl _, by omega⟩)
    have hhas : hasArgInput (removeArgInput ((List.range n).map f) p ++ [x]) (p + 1)
        = true := by
      rw [hasArgInput, List.any_eq_true]
      exact ⟨f (p + 1), hmem, by simp [hf]⟩
    show (if hasArgInput _ (p + 1) then moveArgBefore _ p (p + 1) else _) = _
    rw [if_pos hhas]
    have hfind : (removeArgInput ((List.range n).map f) p ++ [x]).find?
        (fun v => v.idx == p) = some x := by
      rw [List.find?_append]
      have hnone : (removeArgInput ((List.range n).map f) p).find?
          (fun v => v.idx == p) = none := by
        rw [List.find?_eq_none]
        intro v hv
        rw [hl1] at hv
        rcases List.mem_append.1 hv with h | h <;>
          rcases List.mem_map.1 h with ⟨k, hk, rfl⟩
        · have := List.mem_range.1 hk
          simp [hf]
          omega
        · have := List.mem_range'_1.1 hk
          simp [hf]
          omega
      rw [hnone]
      simp [hx]
    rw [moveArgBefore_of_find _ _ _ _ hfind]
    have hrem2 : removeArgInput (removeArgInput ((List.range n).map f) p ++ [x]) p
        = removeArgInput ((List.range n).map f) p := by
      rw [removeArgInput, List.filter_append]
      have hx2 : [x].filter (fun v => v.idx != p) = [] := by simp [hx]
      have hidem : (removeArgInput ((List.range n).map f) p).filter
          (fun v => v.idx != p) = removeArgInput ((List.range n).map f) p := by
        apply List.filter_eq_self.2
        intro v hv
        rw [hl1] at hv
        rcases List.mem_append.1 hv with h | h <;>
          rcases List.mem_map.1 h with ⟨k, hk, rfl⟩
        · have := List.mem_range.1 hk
          simp [hf]
          omega
        · have := List.mem_range'_1.1 hk
          simp [hf]
          omega
      rw [hx2, hidem, List.append_nil]
    rw [hrem2, insertBeforeArg, hl1]
    have hdecomp : List.range' (p + 1) (n - p - 1)
        = (p + 1) :: List.range' (p + 2) (n - p - 2) := by
      have : n - p - 1 = (n - p - 2) + 1 := by omega
      rw [this]
      rfl
    have hall : ∀ v ∈ (List.range p).map f, (fun v : VInput => v.idx != p + 1) v := by
      intro v hv
      rcases List.mem_map.1 hv with ⟨k, hk, rfl⟩
      have := List.mem_range.1 hk
      simp [hf]
      omega
    have htw : List.takeWhile (fun v : VInput => v.idx != p + 1)
        (f (p + 1) :: (List.range' (p + 2) (n - p - 2)).map f) = [] := by
      rw [List.takeWhile_cons]
      simp [hf]
    have hdw : List.dropWhile (fun v : VInput => v.idx != p + 1)
        (f (p + 1) :: (List.range' (p + 2) (n - p - 2)).map f)
        = f (p + 1) :: (List.range' (p + 2) (n - p - 2)).map f := by
      rw [List.dropWhile_cons]
      simp [hf]
    rw [hdecomp, List.map_cons]
    rw [List.takeWhile_append_of_pos hall, List.dropWhile_append_of_pos hall]
    rw [htw, hdw]
    rw [htarget, hdecomp, List.map_cons]
    simp
  · -- p is the last index: ARG(p+1) does not exist, the slot stays at the end
    have hn : n = p + 1 := by omega
    subst hn
    have hl1' : removeArgInput ((List.range (p + 1)).map f) p = (List.range p).map f := by
      rw [hl1]
      have : p + 1 - p - 1 = 0 := by omega
      rw [this]
      simp
    have hhas : hasArgInput (removeArgInput ((List.range (p + 1)).map f) p ++ [x])
        (p + 1) = false := by
      rw [hasArgInput, List.any_eq_false]
      intro v hv
      rcases List.mem_append.1 hv with h | h
      · rw [hl1'] at h
        rcases List.mem_map.1 h with ⟨k, hk, rfl⟩
        have := List.mem_range.1 hk
        simp [hf]
        omega
      · rcases List.mem_singleton.1 h with rfl
        simp [hx]
    show (if hasArgInput _ (p + 1) then moveArgBefore _ p (p + 1) else _) = _
    rw [if_neg (by rw [hhas]; exact Bool.false_ne_true)]
    rw [htarget, hl1']
    have : p + 1 - p - 1 = 0 := by omega
    rw [this]
    simp

/-- A site whose selected method currently has two parameters `a`, `b`,
with both argument sockets connected (to blocks 10 and 11). -/
def twoArgSite : OVGet :=
  { mkSite (nm "c") with
    args := 2
    argNames := [nm "a", nm "b"]
    inputs := [⟨0, nm "a", some 10⟩, ⟨1, nm "b", some 11⟩] }

/-- C7, counterexample.  The claim says that when the parameter-name list
changes without a count change, *exactly the mismatched slots* are
replaced.  Renaming both parameters (`["a","b"]` to `["x","y"]`) is a
count-preserving change in which both slots mismatch, but
`arraysEqual` reports only the largest differing index (1), so only
`ARG1` is replaced: `ARG0` keeps its stale `"a"` label even though its
parameter is now `"x"`. -/
theorem C7_counterexample :
    (updateMethodArgs twoArgSite [nm "x", nm "y"]).argNames[0]? = some (nm "x") ∧
    (updateMethodArgs twoArgSite [nm "x", nm "y"]).inputs
      = [⟨0, nm "a", some 10⟩, ⟨1, nm "y", none⟩] ∧
    nm "a" ≠ nm "x" := by
  refine ⟨by decide, by decide, by decide⟩

/-- C7 (amended): when the parameter count differs from the materialized
input count, trailing value inputs are appended (fresh and unconnected,
labelled with the new parameter names) or removed one at a time until the
counts match, inputs below the new count being kept untouched; when the
name list changes without a count change, only the single slot at the
largest mismatched index is replaced in place (its connection dropped,
the other slots untouched) — not every mismatched slot.  In particular a
site bound to a 2-parameter method whose definition gains a third
parameter ends with exactly 3 sockets, the first two keeping their
connections. -/
theorem C7_update_args_amended :
    (∀ (s : OVGet) (newArgs : List Name),
      s.argNames.length = s.args → s.args < newArgs.length →
      (updateMethodArgs s newArgs).args = newArgs.length ∧
      (updateMethodArgs s newArgs).inputs
        = s.inputs ++ (List.range' s.args (newArgs.length - s.args)).map
            (fun k => (⟨k, newArgs.getD k [], none⟩ : VInput))) ∧
    (∀ (s : OVGet) (newArgs : List Name) (f : Nat → VInput),
      (∀ k, (f k).idx = k) → s.inputs = (List.range s.args).map f →
      s.argNames.length = s.args → newArgs.length < s.args →
      (updateMethodArgs s newArgs).args = newArgs.length ∧
      (updateMethodArgs s newArgs).inputs = (List.range newArgs.length).map f) ∧
    (∀ (s : OVGet) (newArgs : List Name) (f : Nat → VInput) (p : Nat),
      (∀ k, (f k).idx = k) → s.inputs = (List.range s.args).map f →
      s.argNames.length = s.args → newArgs.length = s.args →
      p < s.args → s.argNames[p]? ≠ newArgs[p]? →
      (∀ j, p < j → s.argNames[j]? = newArgs[j]?) →
      (updateMethodArgs s newArgs).args = s.args ∧
      (updateMethodArgs s newArgs).inputs
        = (List.range s.args).map
            (fun k => if k = p then ⟨p, newArgs.getD p [], none⟩ else f k)) ∧
    ((updateMethodArgs twoArgSite [nm "a", nm "b", nm "c"]).inputs
      = [⟨0, nm "a", some 10⟩, ⟨1, nm "b", some 11⟩, ⟨2, nm "c", none⟩]) := by
  refine ⟨?_, ?_, ?_, by decide⟩
  · intro s newArgs hlen hlt
    have hne : s.args ≠ newArgs.length := by omega
    have hngt : ¬ s.args > newArgs.length := by omega
    have hae : arraysEqual s.argNames newArgs = .bfalse := by
      rw [arraysEqual, if_pos (by omega)]
    simp only [updateMethodArgs, if_pos hne, if_neg hngt,
      growArgInputs_spec, hae]
    constructor
    · show s.args + (newArgs.length - s.args) = newArgs.length
      omega
    · trivial
  · intro s newArgs f hf hin hlen hlt
    have hne : s.args ≠ newArgs.length := by omega
    have hgt : s.args > newArgs.length := hlt
    have hae : arraysEqual s.argNames newArgs = .bfalse := by
      rw [arraysEqual, if_pos (by omega)]
    simp only [updateMethodArgs, if_pos hne, if_pos hgt, hin,
      shrinkArgInputs_spec f hf s.args newArgs.length (Nat.le_of_lt hlt), hae]
    constructor <;> trivial
  · intro s newArgs f p hf hin hlen hcnt hp hnep hagree
    have hne : ¬ s.args ≠ newArgs.length := by omega
    have hae : arraysEqual s.argNames newArgs = .idx p :=
      arraysEqual_largest_mismatch _ _ (by omega) p (by omega) hnep hagree
    simp only [updateMethodArgs, if_neg hne, hae, appendArgInput, hin]
    refine ⟨trivial, ?_⟩
    exact replaceSlot_spec f hf s.args p hp _ rfl

theorem C7_update_args_amended_witness :
    (updateMethodArgs twoArgSite [nm "a", nm "b", nm "c"]).args
      = [nm "a", nm "b", nm "c"].length ∧
    (updateMethodArgs twoArgSite [nm "a", nm "b", nm "c"]).inputs
      = twoArgSite.inputs ++
          (List.range' twoArgSite.args ([nm "a", nm "b", nm "c"].length
            - twoArgSite.args)).map
            (fun k => (⟨k, [nm "a", nm "b", nm "c"].getD k [], none⟩ : VInput)) :=
  C7_update_args_amended.1 twoArgSite [nm "a", nm "b", nm "c"]
    (by decide) (by decide)

/-- A site that still remembers one method (`"speak"`, selected) of a
class whose definition no longer exists in the workspace. -/
def staleSite : OVGet :=
  { mkSite (nm "Animal") with
    methods := [nm "speak"]
    curValue := nm "speak"
    typeOfValue := nm "method" }

/-- C8, counterexample.  The claim says that whenever the previously
selected member name is in neither the current method list nor the
attribute list, the selection is cleared.  With the class definition gone
both fetched lists are empty, the stale selection `"speak"` is in neither,
the refresh runs (stored method count 1 ≠ fetched 0) — yet the clearing
code sits inside the branch that requires a nonempty combined member set,
so `curValue`/`typeOfValue` keep their stale values. -/
theorem C8_counterexample :
    getMethods [] (nm "Animal") = [] ∧
    getClassVariables [] (nm "Animal") = [] ∧
    (getDropDown staleSite false [] none).curValue = nm "speak" ∧
    (getDropDown staleSite false [] none).typeOfValue = nm "method" := by
  refine ⟨rfl, rfl, by decide, by decide⟩

/-- C8 (amended): during a dropdown refresh that actually rebuilds (a
member count changed or a rename was passed), *provided the combined
fetched member set is nonempty*, a previously selected member name that —
after translation through the rename pair — is contained in neither the
fetched method list nor the fetched attribute list has the selection
cleared: `curValue` and `typeOfValue` are set to the empty string rather
than to any other member, and the block itself still exists (the refresh
only rebuilds its dropdown input).  When both fetched lists are empty, the
dropdown input is removed but the stale `curValue`/`typeOfValue` are kept
(see the counterexample). -/
theorem C8_selection_cleared (s : OVGet) (blocks : List WBlock)
    (ren : Option (Name × Name))
    (hcond : s.methods.length ≠ (fetchedMethods s blocks).length ∨
      renTruthy ren = true ∨
      s.classVariables.length ≠ (fetchedClassVars s blocks).length)
    (hne : (fetchedMethods s blocks).length ≠ 0 ∨
      (fetchedClassVars s blocks).length ≠ 0)
    (hnotm : ((fetchedMethods s blocks).map (renApply ren)).contains
        (renApply ren s.curValue) = false)
    (hnotv : (fetchedClassVars s blocks).contains (renApply ren s.curValue) = false) :
    (getDropDown s false blocks ren).curValue = [] ∧
    (getDropDown s false blocks ren).typeOfValue = [] := by
  have hb : (!(((fetchedMethods s blocks).map (renApply ren)).contains
        (renApply ren s.curValue)) &&
      !((fetchedClassVars s blocks).contains (renApply ren s.curValue))) = true := by
    rw [hnotm, hnotv]
    rfl
  simp only [getDropDown, if_pos hcond, if_pos hne, hb, if_pos, Bool.not_true,
    if_true]
  constructor
  · rfl
  · rfl

/-- A workspace in which class `"Animal"` now has the two methods `"run"`
and `"walk"` (and no longer `"speak"`). -/
def animalWs : List WBlock :=
  [⟨0, .classDef (nm "Animal") [nm "run", nm "walk"] []⟩]

theorem C8_selection_cleared_witness :
    (getDropDown staleSite false animalWs none).curValue = [] ∧
    (getDropDown staleSite false animalWs none).typeOfValue = [] :=
  C8_selection_cleared staleSite animalWs none (by decide) (by decide)
    (by decide) (by decide)

end BlocklyClass
